import Mathlib

/-!
Verification development for the `txt2epub` converter (`txt2epub.py`).

The program parses a plain-text novel (metadata block, volume headers,
chapter headers, body lines) into an in-memory tree and then emits the
EPUB artifacts: per-chapter XHTML documents together with manifest and
spine entry lists (`generate_chapters`), a navigation map
(`generate_toc`), and a zip archive (`zip_epub`).

Text is modelled as `List Char` (Python `str` is a sequence of Unicode
code points, which matches `Char` lists).  Fallible code (the unguarded
`lines[i+1]` access) is modelled with `Option`.
-/

/-- Characters for which Python `str.isspace()` is true; these are the
characters removed by `str.strip()` with no arguments.  The set is the
Unicode whitespace set used by CPython: U+0009..U+000D, U+001C..U+001F,
U+0020, U+0085, U+00A0, U+1680, U+2000..U+200A, U+2028, U+2029, U+202F,
U+205F and U+3000 (the full-width space). -/
def pyIsSpace (c : Char) : Bool :=
  (9 ≤ c.toNat && c.toNat ≤ 13) || (28 ≤ c.toNat && c.toNat ≤ 32) ||
  c.toNat = 133 || c.toNat = 160 || c.toNat = 0x1680 ||
  (0x2000 ≤ c.toNat && c.toNat ≤ 0x200A) ||
  c.toNat = 0x2028 || c.toNat = 0x2029 || c.toNat = 0x202F ||
  c.toNat = 0x205F || c.toNat = 0x3000

/-- Models Python `str.strip()`: drop leading and trailing whitespace. -/
def pyStrip (l : List Char) : List Char :=
  ((l.dropWhile pyIsSpace).reverse.dropWhile pyIsSpace).reverse

/-- Models Python `str.rstrip('\n')`: drop trailing newline characters. -/
def rstripNL (l : List Char) : List Char :=
  (l.reverse.dropWhile (fun c => c = '\n')).reverse

/-- Helper for `pyReadlines`: `acc` holds the current line reversed. -/
def pyReadlinesAux (acc : List Char) : List Char → List (List Char)
  | [] => if acc.isEmpty then [] else [acc.reverse]
  | c :: rest =>
    if c = '\n' then (acc.reverse ++ ['\n']) :: pyReadlinesAux [] rest
    else pyReadlinesAux (c :: acc) rest

/-- Models Python `f.readlines()` on the decoded text of the file (after
universal-newline translation, so line breaks are `'\n'`): the text is
split after every `'\n'`, and each line keeps its trailing `'\n'`
except possibly the last. -/
def pyReadlines (s : List Char) : List (List Char) :=
  pyReadlinesAux [] s

/-- The metadata-block delimiter line `'━━━━━━━━━'` (nine U+2501). -/
def metaDelim : List Char := "━━━━━━━━━".toList

/-- The book-title marker prefix `'「书名：'` (four characters). -/
def titleMarker : List Char := "「书名：".toList

/-- The author marker prefix `'「作者：'` (four characters). -/
def authorMarker : List Char := "「作者：".toList

/-- The description marker prefix `'「书籍简介：'` (six characters). -/
def descrMarker : List Char := "「书籍简介：".toList

/-- The volume marker prefix `'[卷名] '` (five characters), the literal
part of the regex `^\[卷名\] (.+)$`. -/
def volMarker : List Char := "[卷名] ".toList

/-- Models `re.compile(r'^\[卷名\] (.+)$').match(line)`: the line must
start with the five-character marker, and `(.+)$` must cover the rest:
a non-empty run of non-newline characters reaching the end of the
string (Python `$` also matches just before one final trailing
newline).  Returns the captured group. -/
def volMatch (line : List Char) : Option (List Char) :=
  if volMarker.isPrefixOf line then
    let rest := line.drop 5
    let g := if rest.getLast? = some '\n' then rest.dropLast else rest
    if g.isEmpty then none
    else if g.contains '\n' then none
    else some g
  else none

/-- Models Python `line.startswith((' ', '　'))`: the line begins with
an ordinary space or the full-width space U+3000. -/
def startsIndent (line : List Char) : Bool :=
  match line with
  | [] => false
  | c :: _ => c = ' ' || c = '　'

/-- Book metadata, with the defaults set in `EpubGenerator.__init__`. -/
structure Metadata where
  title : List Char
  author : List Char
  description : List Char
deriving DecidableEq, Repr

/-- One chapter: title and the list of raw content lines. -/
structure Chapter where
  title : List Char
  content : List (List Char)
deriving DecidableEq, Repr

/-- One volume: title and its ordered chapters. -/
structure Volume where
  title : List Char
  chapters : List Chapter
deriving DecidableEq, Repr

/-- The volume currently being built.  In the Python source
`self.current_volume` aliases the last element of `self.books` and
`self.current_chapter` aliases the last element of its `chapters`; we
de-alias by keeping the in-progress volume apart, with its already
finished chapters in `closedChapters` and the chapter currently
receiving content lines in `openChapter`. -/
structure PartialVolume where
  title : List Char
  closedChapters : List Chapter
  openChapter : Option Chapter
deriving DecidableEq, Repr

/-- Closes the in-progress volume into a plain `Volume`. -/
def closePV (pv : PartialVolume) : Volume :=
  ⟨pv.title, pv.closedChapters ++ pv.openChapter.toList⟩

/-- Parser state of `parse_txt`: `metadata`, the volumes already closed,
the in-progress volume (`self.current_volume` is `None` iff
`openVolume = none`), and the `metadata_section` flag. -/
structure ParseState where
  metadata : Metadata
  closedVolumes : List Volume
  openVolume : Option PartialVolume
  metaSection : Bool
deriving DecidableEq, Repr

/-- The value of `self.books` represented by a parser state: the closed
volumes followed by the in-progress volume, if any. -/
def booksOf (st : ParseState) : List Volume :=
  st.closedVolumes ++ (st.openVolume.map closePV).toList

/-- Total number of chapters over all volumes of a book. -/
def totalChaps (books : List Volume) : Nat :=
  (books.map fun v => v.chapters.length).sum

/-- The initial parser state from `EpubGenerator.__init__`. -/
def initState : ParseState :=
  ⟨⟨"默认标题".toList, "默认作者".toList, []⟩, [], none, false⟩

/-- Processes one iteration of the loop body of `parse_txt`.  `line` is
the current line after `rstrip('\n')`; `next?` is the raw following
line `lines[i+1]` when it exists.  Returns `none` exactly when the
source would raise `IndexError`: a description-marker line in the
metadata section with no following line. -/
def parseLine (st : ParseState) (line : List Char) (next? : Option (List Char)) :
    Option ParseState :=
  if line = metaDelim then some { st with metaSection := true }
  else if st.metaSection then
    if titleMarker.isPrefixOf line then
      some { st with metadata := { st.metadata with title := (line.drop 4).dropLast } }
    else if authorMarker.isPrefixOf line then
      some { st with metadata := { st.metadata with author := (line.drop 4).dropLast } }
    else if descrMarker.isPrefixOf line then
      match next? with
      | some nxt =>
        some { st with metadata := { st.metadata with description := pyStrip nxt },
                       metaSection := false }
      | none => none
    else some st
  else
    match volMatch line with
    | some vtitle =>
      some { st with
        closedVolumes := st.closedVolumes ++ (st.openVolume.map closePV).toList,
        openVolume := some ⟨vtitle, [], none⟩ }
    | none =>
      match st.openVolume with
      | none => some st
      | some pv =>
        if !startsIndent line && !(pyStrip line).isEmpty then
          some { st with
            openVolume := some ⟨pv.title, pv.closedChapters ++ pv.openChapter.toList,
                                some ⟨pyStrip line, []⟩⟩ }
        else
          match pv.openChapter with
          | some ch =>
            some { st with
              openVolume := some ⟨pv.title, pv.closedChapters,
                                  some ⟨ch.title, ch.content ++ [line]⟩⟩ }
          | none => some st

/-- Runs the `parse_txt` loop over the raw lines.  Each line is
`rstrip('\n')`-ed before processing, and the peeked `lines[i+1]` is the
raw head of the remaining lines. -/
def parseLoop : ParseState → List (List Char) → Option ParseState
  | st, [] => some st
  | st, l :: rest =>
    match parseLine st (rstripNL l) rest.head? with
    | some st2 => parseLoop st2 rest
    | none => none

/-- Models `EpubGenerator.parse_txt` on the decoded file text: split
into lines and run the parsing loop from the initial state. -/
def parse_txt (fileText : List Char) : Option ParseState :=
  parseLoop initState (pyReadlines fileText)

/-- The decimal digit characters in order. -/
def digitChars : List Char := "0123456789".toList

/-- The character for one decimal digit `d < 10`. -/
def digitChar (d : Nat) : Char := digitChars.getD d '0'

/-- Fueled decimal rendering of a natural number (most significant digit
first); `natChars` supplies enough fuel. -/
def natCharsFuel : Nat → Nat → List Char
  | 0, _ => []
  | fuel + 1, n =>
    if n < 10 then [digitChar n]
    else natCharsFuel fuel (n / 10) ++ [digitChar (n % 10)]

/-- Decimal rendering of a natural number, as produced by Python
`str(n)` / f-string interpolation of an `int`. -/
def natChars (n : Nat) : List Char := natCharsFuel (n + 1) n

/-- Reads a digit list back as a natural number. -/
def decodeDigits (l : List Char) : Nat :=
  l.foldl (fun acc c => acc * 10 + (c.toNat - 48)) 0

/-- The chapter file name `f'vol{vol_idx}_chap{chap_idx}.xhtml'`. -/
def fnameChars (v c : Nat) : List Char :=
  "vol".toList ++ natChars v ++ "_chap".toList ++ natChars c ++ ".xhtml".toList

/-- Models Python `s.split('.')[0]`: the characters before the first
dot. -/
def splitDotHead (l : List Char) : List Char :=
  l.takeWhile (fun c => c ≠ '.')

/-- The identifier `vol{N}_chap{M}` exactly as the specification words
it: `'vol'`, the 1-based volume position, `'_chap'`, the 1-based
chapter position. -/
def specId (v c : Nat) : List Char :=
  "vol".toList ++ natChars v ++ "_chap".toList ++ natChars c

/-- One manifest entry appended by `generate_chapters`. -/
structure ManifestItem where
  id : List Char
  href : List Char
  mediaType : List Char
deriving DecidableEq, Repr

/-- One spine entry appended by `generate_chapters`. -/
structure SpineItem where
  idref : List Char
deriving DecidableEq, Repr

/-- Manifest entries for the chapters of one volume: inner loop of
`generate_chapters`, `c` being the next 1-based chapter index. -/
def manChaps (v : Nat) : Nat → List Chapter → List ManifestItem
  | _, [] => []
  | c, _ :: rest =>
    ⟨splitDotHead (fnameChars v c), fnameChars v c, "application/xhtml+xml".toList⟩ ::
      manChaps v (c + 1) rest

/-- Manifest entries appended by `generate_chapters` over the volumes
starting at 1-based volume index `v`. -/
def manifestGo : Nat → List Volume → List ManifestItem
  | _, [] => []
  | v, vol :: rest => manChaps v 1 vol.chapters ++ manifestGo (v + 1) rest

/-- The manifest list built by `generate_chapters`. -/
def manifestOf (books : List Volume) : List ManifestItem := manifestGo 1 books

/-- Spine entries for the chapters of one volume: the same inner loop
of `generate_chapters`, which appends one spine entry per chapter. -/
def spineChaps (v : Nat) : Nat → List Chapter → List SpineItem
  | _, [] => []
  | c, _ :: rest => ⟨splitDotHead (fnameChars v c)⟩ :: spineChaps v (c + 1) rest

/-- Spine entries appended by `generate_chapters` over the volumes
starting at 1-based volume index `v`. -/
def spineGo : Nat → List Volume → List SpineItem
  | _, [] => []
  | v, vol :: rest => spineChaps v 1 vol.chapters ++ spineGo (v + 1) rest

/-- The spine list built by `generate_chapters`. -/
def spineOf (books : List Volume) : List SpineItem := spineGo 1 books

/-- Models Python `enumerate(xs, start=n)`. -/
def enum1 {α : Type} : Nat → List α → List (Nat × α)
  | _, [] => []
  | n, a :: as => (n, a) :: enum1 (n + 1) as

/-- One `navPoint` element emitted into `toc.ncx` by `generate_toc`;
`navId` is the integer used for both the `id` and the `playOrder`
attribute, `src` the `content` reference, and `isVolume` tells whether
it is a volume-level point or a chapter point. -/
structure NavPoint where
  navId : Nat
  label : List Char
  src : List Char
  isVolume : Bool
deriving DecidableEq, Repr

/-- Chapter navigation points of one volume: inner loop of
`generate_toc`; `c` is the next 1-based chapter index and `n` the next
`nav_id`. -/
def chapNavs (v : Nat) : Nat → Nat → List Chapter → List NavPoint
  | _, _, [] => []
  | c, n, ch :: rest => ⟨n, ch.title, fnameChars v c, false⟩ :: chapNavs v (c + 1) (n + 1) rest

/-- Navigation points emitted by `generate_toc` for the volumes
starting at 1-based volume index `v` with next `nav_id` `n`: for each
volume one volume point whose `content` is `vol{v}_chap1.xhtml`, then
one point per chapter. -/
def tocGo : Nat → Nat → List Volume → List NavPoint
  | _, _, [] => []
  | v, n, vol :: rest =>
    ⟨n, vol.title, fnameChars v 1, true⟩ ::
      (chapNavs v 1 (n + 1) vol.chapters ++ tocGo (v + 1) (n + 1 + vol.chapters.length) rest)

/-- The full sequence of navigation points emitted by `generate_toc`:
volume indices and `nav_id` both start at 1. -/
def tocNav (books : List Volume) : List NavPoint := tocGo 1 1 books

/-- Models `text.replace('：', ':')`: every full-width colon U+FF1A is
replaced by an ASCII colon. -/
def colonMap (cs : List Char) : List Char :=
  cs.map fun c => if c = '：' then ':' else c

/-- Case-insensitive match of one pattern character against one text
character, for the literal characters of the image-tag regex compiled
with `re.IGNORECASE`.  A lower-case ASCII pattern letter also matches
its upper-case form; every other pattern character matches exactly.
(Exotic Unicode case foldings are outside the model; the pattern
letters are `i`, `m`, `g`.) -/
def ciEq (p c : Char) : Bool :=
  p = c || (p.isLower && c.toNat + 32 = p.toNat)

/-- Case-insensitive prefix test of a pattern against the text, using
`ciEq` characterwise. -/
def ciIsPrefix : List Char → List Char → Bool
  | [], _ => true
  | _ :: _, [] => false
  | p :: ps, c :: cs => ciEq p c && ciIsPrefix ps cs

/-- The literal opening of the image tag pattern, `[img=`. -/
def imgOpen : List Char := "[img=".toList

/-- The literal closing tag of the image pattern, `[/img]`. -/
def stopTag : List Char := "[/img]".toList

/-- The dimension separator class `[，, ]` of the image regex:
full-width comma, ASCII comma, or space. -/
def isSep (c : Char) : Bool := c = '，' || c = ',' || c = ' '

/-- Models the regex fragment `(\d+)[，, ]*(\d+)\]` at the start of
`cs`, with the greedy/backtracking semantics of `re`: the text must be
a non-empty digit run, a possibly-empty separator run, a non-empty
digit run, then `]`.  When the separator run is empty the two groups
come from one digit run of length at least two, split greedily into
all-but-last and last.  Returns the two captured groups and the number
of characters consumed (including the `]`).  Digits are modelled as
ASCII digits. -/
def parseDims (cs : List Char) : Option (List Char × List Char × Nat) :=
  let d1 := cs.takeWhile Char.isDigit
  if d1.isEmpty then none
  else
    let r1 := cs.drop d1.length
    let s := r1.takeWhile isSep
    if s.isEmpty then
      if 2 ≤ d1.length then
        match r1 with
        | ']' :: _ => some (d1.dropLast, d1.drop (d1.length - 1), d1.length + 1)
        | _ => none
      else none
    else
      let r2 := r1.drop s.length
      let d2 := r2.takeWhile Char.isDigit
      if d2.isEmpty then none
      else
        match r2.drop d2.length with
        | ']' :: _ => some (d1, d2, d1.length + (s.length + (d2.length + 1)))
        | _ => none

/-- Index of the first case-insensitive occurrence of `[/img]`, as
found by the lazy group `(.*?)\[/img\]`: the scan fails on a newline
since `.` does not match `'\n'`. -/
def findStop : List Char → Option Nat
  | [] => none
  | c :: rest =>
    if ciIsPrefix stopTag (c :: rest) then some 0
    else if c = '\n' then none
    else (findStop rest).map (· + 1)

/-- The substitution template `<img src="\3" width="\1" height="\2"/>`
instantiated with the captured groups. -/
def imgReplace (w h src : List Char) : List Char :=
  "<img src=\"".toList ++ src ++ "\" width=\"".toList ++ w ++
    "\" height=\"".toList ++ h ++ "\"/>".toList

/-- Attempts the full image regex
`\[img=(\d+)[，, ]*(\d+)\](.*?)\[/img\]` (with `re.IGNORECASE`) at the
start of `cs`.  On success returns the replacement text and the number
of characters matched. -/
def tryMatch (cs : List Char) : Option (List Char × Nat) :=
  if ciIsPrefix imgOpen cs then
    match parseDims (cs.drop 5) with
    | some (w, h, n) =>
      match findStop ((cs.drop 5).drop n) with
      | some k => some (imgReplace w h (((cs.drop 5).drop n).take k), 5 + n + (k + 6))
      | none => none
    | none => none
  else none

/-- Fueled scan of `re.sub`: at each position try the pattern; on a
match emit the replacement and continue after the matched text,
otherwise copy one character.  Every step consumes at least one
character, so fuel equal to the length of the text suffices. -/
def reSubImgFuel : Nat → List Char → List Char
  | 0, _ => []
  | fuel + 1, cs =>
    match tryMatch cs with
    | some (rep, n) => rep ++ reSubImgFuel fuel (cs.drop n)
    | none =>
      match cs with
      | [] => []
      | c :: rest => c :: reSubImgFuel fuel rest

/-- Models `img_pattern.sub(r'<img src="\3" width="\1" height="\2"/>', text)`. -/
def reSubImg (cs : List Char) : List Char := reSubImgFuel cs.length cs

/-- Models `EpubGenerator.process_images`: replace every full-width
colon by an ASCII colon, then rewrite the image tags. -/
def process_images (text : List Char) : List Char :=
  reSubImg (colonMap text)

/-- Compression methods relevant to `zipfile` here. -/
inductive Compression
  | stored
  | deflated
deriving DecidableEq, Repr

/-- One entry written into the output archive: its archive name and the
compression it was written with. -/
structure ZipEntry where
  arcname : List Char
  compress : Compression
deriving DecidableEq, Repr

/-- The compression used by `zf.write` when no `compress_type` is
given: the `ZipFile`'s own compression, and
`zipfile.ZipFile(self.output_path, 'w')` leaves that at its default
`ZIP_STORED`. -/
def zipFileDefault : Compression := Compression.stored

/-- The first archive entry:
`zf.write('epub/mimetype', 'mimetype', compress_type=zipfile.ZIP_STORED)`. -/
def mimetypeEntry : ZipEntry := ⟨"mimetype".toList, Compression.stored⟩

/-- Models `os.path.join(root, file)` for POSIX paths. -/
def joinPath (root file : List Char) : List Char := root ++ '/' :: file

/-- Models `os.path.relpath(path, 'epub')` for the paths produced by
`os.walk('epub')`, which all start with `epub/` (or are `epub` itself):
the `epub/` prefix is removed. -/
def relToEpub (p : List Char) : List Char :=
  if "epub/".toList.isPrefixOf p then p.drop 5 else p

/-- Models `EpubGenerator.zip_epub`.  `walked` is the list of
`(dirpath, filename)` pairs produced by `os.walk('epub')` in walk
order.  The fixed `mimetype` entry is written first, stored without
compression; then every walked file except those named `mimetype` is
written with the archive's default compression, under its path
relative to `epub`. -/
def zip_epub (walked : List (List Char × List Char)) : List ZipEntry :=
  mimetypeEntry ::
    (walked.filter fun rf => rf.2 ≠ "mimetype".toList).map
      (fun rf => ⟨relToEpub (joinPath rf.1 rf.2), zipFileDefault⟩)

/-- A scanning state whose current volume has no chapters yet, used to
exhibit behaviour on the metadata delimiter line. -/
def delimState : ParseState :=
  { initState with openVolume := some ⟨"第一卷".toList, [], none⟩ }

/-- Input whose last line is a description-marker line: the delimiter
line followed by `「书籍简介：` text with no following line. -/
def c6Input : List Char := "━━━━━━━━━\n「书籍简介：测试".toList

/-- The claim's chapter-header pattern, read off a single line with no
context: trimmed form non-empty and no leading indentation
character. -/
def claimChapPattern (l : List Char) : Bool :=
  !startsIndent l && !(pyStrip l).isEmpty

/-- A line that the scanning-state parser classifies as a chapter
header whenever a current volume exists: the claim's pattern and not a
volume header. -/
def isChapShape (l : List Char) : Bool :=
  !startsIndent l && !(pyStrip l).isEmpty && !(volMatch l).isSome

/-- Number of chapter-shaped lines occurring strictly after the first
volume-header line. -/
def countChapAfterVol : List (List Char) → Nat
  | [] => 0
  | l :: rest =>
    if (volMatch l).isSome then rest.countP isChapShape else countChapAfterVol rest

/-- A walk of the scratch tree used to refute the compression part of
the claim. -/
def c9Walk : List (List Char × List Char) :=
  [("epub".toList, "mimetype".toList), ("epub/META-INF".toList, "container.xml".toList)]

/-- C1 counterexample: in the scanning state with a current volume, the
metadata delimiter line `━━━━━━━━━` is not a volume header, its trimmed
form is non-empty and it does not start with an indentation character,
so the claim says it starts a new chapter — but the parser switches to
the metadata section instead and the current volume stays without any
chapter. -/
theorem c1_delimiter_cex :
    volMatch metaDelim = none ∧ startsIndent metaDelim = false ∧
    pyStrip metaDelim ≠ [] ∧
    parseLine delimState metaDelim none = some { delimState with metaSection := true } ∧
    (booksOf { delimState with metaSection := true }).map Volume.chapters = [[]] := by
  refine ⟨by decide, by decide, by decide, by decide, by decide⟩

/-- C1 (amended): in the scanning state with a current volume, on a
line that is neither a volume header nor the metadata delimiter line,
the parser starts a new chapter iff the trimmed line is non-empty and
the untrimmed line does not begin with a space or full-width space; the
new chapter carries the trimmed title and empty content and is appended
to the current volume's chapters; otherwise the untrimmed line is
appended to the current chapter's content when one exists, and the line
is dropped when none exists. -/
theorem c1_chapter_header_amended (st : ParseState) (pv : PartialVolume)
    (line : List Char) (next? : Option (List Char))
    (hscan : st.metaSection = false) (hvol : st.openVolume = some pv)
    (hnd : line ≠ metaDelim) (hnv : volMatch line = none) :
    ∃ st', parseLine st line next? = some st' ∧
      st'.closedVolumes = st.closedVolumes ∧ st'.metadata = st.metadata ∧
      st'.metaSection = false ∧
      ((startsIndent line = false ∧ pyStrip line ≠ []) →
        ∃ pv', st'.openVolume = some pv' ∧ pv'.title = pv.title ∧
          (closePV pv').chapters = (closePV pv).chapters ++ [⟨pyStrip line, []⟩] ∧
          pv'.openChapter = some ⟨pyStrip line, []⟩) ∧
      (¬(startsIndent line = false ∧ pyStrip line ≠ []) →
        (∀ ch, pv.openChapter = some ch →
          st'.openVolume = some ⟨pv.title, pv.closedChapters,
            some ⟨ch.title, ch.content ++ [line]⟩⟩) ∧
        (pv.openChapter = none → st' = st)) := by
  by_cases hc : startsIndent line = false ∧ pyStrip line ≠ []
  · have h1 : (!startsIndent line && !(pyStrip line).isEmpty) = true := by
      simp [hc.1, List.isEmpty_iff, hc.2]
    refine ⟨{ st with openVolume := some ⟨pv.title,
        pv.closedChapters ++ pv.openChapter.toList, some ⟨pyStrip line, []⟩⟩ },
      ?_, rfl, rfl, hscan, ?_, fun h => absurd hc h⟩
    · simp only [parseLine, if_neg hnd, hscan, Bool.false_eq_true, if_false, hnv, hvol, h1,
        if_true]
    · intro _
      exact ⟨_, rfl, rfl, rfl, rfl⟩
  · have h1 : (!startsIndent line && !(pyStrip line).isEmpty) = false := by
      rcases not_and_or.mp hc with h | h
      · cases hsi : startsIndent line
        · exact absurd hsi h
        · simp [hsi]
      · have hps : pyStrip line = [] := not_not.mp h
        simp [hps]
    match hoc : pv.openChapter with
    | some ch =>
      refine ⟨{ st with openVolume := some ⟨pv.title, pv.closedChapters,
          some ⟨ch.title, ch.content ++ [line]⟩⟩ },
        ?_, rfl, rfl, hscan, fun h => absurd h hc, ?_⟩
      · simp only [parseLine, if_neg hnd, hscan, Bool.false_eq_true, if_false, hnv, hvol, h1,
          Bool.false_eq_true, if_false, hoc]
      · exact fun _ => ⟨fun ch' hch' => by injection hch' with h; subst h; rfl,
          fun h => Option.noConfusion h⟩
    | none =>
      refine ⟨st, ?_, rfl, rfl, hscan, fun h => absurd h hc, ?_⟩
      · simp only [parseLine, if_neg hnd, hscan, Bool.false_eq_true, if_false, hnv, hvol, h1,
          Bool.false_eq_true, if_false, hoc]
      · exact fun _ => ⟨fun ch' hch' => Option.noConfusion hch', fun _ => rfl⟩

/-- Witness for the amended C1: the line `'第二章'` in a scanning state
with a current volume is processed without error and stays in the
scanning state. -/
theorem c1_chapter_header_amended_witness :
    ∃ st', parseLine delimState "第二章".toList none = some st' ∧
      st'.metaSection = false := by
  obtain ⟨st', h, -, -, h4, -, -⟩ :=
    c1_chapter_header_amended delimState ⟨"第一卷".toList, [], none⟩
      "第二章".toList none (by decide) (by decide) (by decide) (by decide)
  exact ⟨st', h, h4⟩

/-- C5: a body line — one that is neither the metadata delimiter nor a
volume header, read in the scanning state either with no current
volume, or with a current volume but no current chapter while the line
is indented or blank — leaves the entire parser state unchanged, with
no error. -/
theorem c5_body_line_dropped (st : ParseState) (line : List Char)
    (next? : Option (List Char))
    (hscan : st.metaSection = false) (hnd : line ≠ metaDelim)
    (hnv : volMatch line = none)
    (hbody : st.openVolume = none ∨
      ∃ pv, st.openVolume = some pv ∧ pv.openChapter = none ∧
        (startsIndent line = true ∨ pyStrip line = [])) :
    parseLine st line next? = some st := by
  rcases hbody with h | ⟨pv, hpv, hoc, hcond⟩
  · simp only [parseLine, if_neg hnd, hscan, Bool.false_eq_true, if_false, hnv, h]
  · have h1 : (!startsIndent line && !(pyStrip line).isEmpty) = false := by
      rcases hcond with h | h
      · simp [h]
      · simp [h]
    simp only [parseLine, if_neg hnd, hscan, Bool.false_eq_true, if_false, hnv, hpv, h1,
      Bool.false_eq_true, if_false, hoc]

/-- Witness for C5: an indented prose line arriving while the current
volume has no chapter yet is silently dropped. -/
theorem c5_body_line_dropped_witness :
    parseLine delimState "　缩进行".toList none = some delimState :=
  c5_body_line_dropped delimState "　缩进行".toList none (by decide) (by decide)
    (by decide) (Or.inr ⟨⟨"第一卷".toList, [], none⟩, by decide, by decide, by decide⟩)

/-- C6: a description-marker line that is the last line of the input
makes the parser evaluate `lines[i+1]`, an unguarded out-of-range index
access; the run fails with an `IndexError` (modelled as `none`) instead
of defaulting the description or raising a designated parse error. -/
theorem c6_description_last_line_crashes : parse_txt c6Input = none := by decide

/-- C10: from any state inside the metadata section, if no remaining
line is prefixed by the description marker after `rstrip('\n')`, the
parser stays in the metadata section for the whole remainder: the
closed volumes, the current volume and the description are untouched
(so no volume, chapter or content line is ever produced), and the run
does not fail. -/
theorem c10_metadata_state_sticky (st : ParseState) (lines : List (List Char))
    (hm : st.metaSection = true)
    (hnd : ∀ l ∈ lines, descrMarker.isPrefixOf (rstripNL l) = false) :
    ∃ st', parseLoop st lines = some st' ∧ st'.metaSection = true ∧
      st'.closedVolumes = st.closedVolumes ∧ st'.openVolume = st.openVolume ∧
      st'.metadata.description = st.metadata.description := by
  induction lines generalizing st with
  | nil => exact ⟨st, rfl, hm, rfl, rfl, rfl⟩
  | cons l rest ih =>
    have hndl : descrMarker.isPrefixOf (rstripNL l) = false := hnd l (by simp)
    have hndr : ∀ l' ∈ rest, descrMarker.isPrefixOf (rstripNL l') = false :=
      fun l' hl' => hnd l' (by simp [hl'])
    by_cases hdel : rstripNL l = metaDelim
    · have hstep : parseLine st (rstripNL l) rest.head? = some { st with metaSection := true } := by
        simp only [parseLine, if_pos hdel]
      obtain ⟨st', h1, h2, h3, h4, h5⟩ := ih { st with metaSection := true } rfl hndr
      exact ⟨st', by simp only [parseLoop, hstep, h1], h2, h3, h4, h5⟩
    · by_cases ht : titleMarker.isPrefixOf (rstripNL l)
      · have hstep : parseLine st (rstripNL l) rest.head? =
            some { st with metadata :=
              { st.metadata with title := ((rstripNL l).drop 4).dropLast } } := by
          simp only [parseLine, if_neg hdel, hm, if_true, ht, if_pos]
        obtain ⟨st', h1, h2, h3, h4, h5⟩ :=
          ih { st with metadata :=
            { st.metadata with title := ((rstripNL l).drop 4).dropLast } } hm hndr
        exact ⟨st', by simp only [parseLoop, hstep, h1], h2, h3, h4, h5⟩
      · by_cases ha : authorMarker.isPrefixOf (rstripNL l)
        · have hstep : parseLine st (rstripNL l) rest.head? =
              some { st with metadata :=
                { st.metadata with author := ((rstripNL l).drop 4).dropLast } } := by
            simp only [parseLine, if_neg hdel, hm, if_true, ht, if_false, ha, if_pos]
            simp
          obtain ⟨st', h1, h2, h3, h4, h5⟩ :=
            ih { st with metadata :=
              { st.metadata with author := ((rstripNL l).drop 4).dropLast } } hm hndr
          exact ⟨st', by simp only [parseLoop, hstep, h1], h2, h3, h4, h5⟩
        · have hstep : parseLine st (rstripNL l) rest.head? = some st := by
            simp only [parseLine, if_neg hdel, hm, if_true]
            simp [ht, ha, hndl]
          obtain ⟨st', h1, h2, h3, h4, h5⟩ := ih st hm hndr
          exact ⟨st', by simp only [parseLoop, hstep, h1], h2, h3, h4, h5⟩

/-- Witness for C10: in the metadata section, a volume-header line and
a chapter-like line produce nothing and the parser stays in the
metadata section. -/
theorem c10_metadata_state_sticky_witness :
    ∃ st', parseLoop { initState with metaSection := true }
        ["[卷名] 第一卷\n".toList, "第一章\n".toList] = some st' ∧
      st'.metaSection = true ∧
      st'.closedVolumes = [] ∧ st'.openVolume = none ∧
      st'.metadata.description = [] := by
  obtain ⟨st', h1, h2, h3, h4, h5⟩ :=
    c10_metadata_state_sticky { initState with metaSection := true }
      ["[卷名] 第一卷\n".toList, "第一章\n".toList] rfl (by decide)
  exact ⟨st', h1, h2, h3, h4, h5⟩

/-- Helper: `takeWhile` passes over a block that wholly satisfies the
predicate. -/
theorem takeWhile_append_all {p : Char → Bool} {xs ys : List Char}
    (h : ∀ a ∈ xs, p a = true) :
    (xs ++ ys).takeWhile p = xs ++ ys.takeWhile p := by
  induction xs with
  | nil => rfl
  | cons a l ih =>
    simp only [List.cons_append, List.takeWhile_cons, h a (by simp), if_true]
    rw [ih fun a ha => h a (by simp [ha])]

/-- Helper: `takeWhile` stops at a failing head. -/
theorem takeWhile_cons_false {p : Char → Bool} {a : Char} {l : List Char}
    (h : p a = false) : (a :: l).takeWhile p = [] := by
  simp [List.takeWhile_cons, h]

/-- Helper: `dropWhile` passes over a block that wholly satisfies the
predicate. -/
theorem dropWhile_append_all {p : Char → Bool} {xs ys : List Char}
    (h : ∀ a ∈ xs, p a = true) :
    (xs ++ ys).dropWhile p = ys.dropWhile p := by
  induction xs with
  | nil => rfl
  | cons a l ih =>
    simp only [List.cons_append, List.dropWhile_cons, h a (by simp), if_true]
    exact ih fun a ha => h a (by simp [ha])

theorem digitChar_isDigit {d : Nat} (h : d < 10) : (digitChar d).isDigit = true := by
  interval_cases d <;> decide

theorem digitChar_toNat {d : Nat} (h : d < 10) : (digitChar d).toNat = 48 + d := by
  interval_cases d <;> decide

theorem natCharsFuel_digits {fuel n : Nat} :
    ∀ c ∈ natCharsFuel fuel n, c.isDigit = true := by
  induction fuel generalizing n with
  | zero => intro c hc; cases hc
  | succ fuel ih =>
    intro c hc
    by_cases h : n < 10
    · simp only [natCharsFuel, if_pos h, List.mem_singleton] at hc
      exact hc ▸ digitChar_isDigit h
    · simp only [natCharsFuel, if_neg h, List.mem_append, List.mem_singleton] at hc
      rcases hc with hc | hc
      · exact ih c hc
      · exact hc ▸ digitChar_isDigit (Nat.mod_lt n (by norm_num))

/-- Every character of the decimal rendering is an ASCII digit. -/
theorem natChars_digits {n : Nat} : ∀ c ∈ natChars n, c.isDigit = true :=
  natCharsFuel_digits

theorem natChars_ne_nil {n : Nat} : natChars n ≠ [] := by
  unfold natChars natCharsFuel
  by_cases h : n < 10 <;> simp [h]

theorem decodeDigits_append_singleton (xs : List Char) (c : Char) :
    decodeDigits (xs ++ [c]) = decodeDigits xs * 10 + (c.toNat - 48) := by
  simp [decodeDigits, List.foldl_append]

theorem natCharsFuel_decode {fuel n : Nat} (h : n < fuel) :
    decodeDigits (natCharsFuel fuel n) = n := by
  induction fuel generalizing n with
  | zero => omega
  | succ fuel ih =>
    by_cases h10 : n < 10
    · simp only [natCharsFuel, if_pos h10]
      simp [decodeDigits, digitChar_toNat h10]
    · have hdiv : n / 10 < fuel := by
        have h1 : n / 10 < n := Nat.div_lt_self (by omega) (by norm_num)
        omega
      simp only [natCharsFuel, if_neg h10]
      rw [decodeDigits_append_singleton, ih hdiv,
        digitChar_toNat (Nat.mod_lt n (by norm_num))]
      omega

/-- Decoding the decimal rendering gives back the number. -/
theorem decode_natChars (n : Nat) : decodeDigits (natChars n) = n :=
  natCharsFuel_decode (Nat.lt_succ_self n)

/-- Decimal rendering is injective. -/
theorem natChars_injective {a b : Nat} (h : natChars a = natChars b) : a = b := by
  have := congrArg decodeDigits h
  rwa [decode_natChars, decode_natChars] at this

/-- Characters before the first `.` of a chapter file name: exactly the
`vol{N}_chap{M}` identifier, since digits and the fixed letters contain
no dot. -/
theorem splitDotHead_fname (v c : Nat) : splitDotHead (fnameChars v c) = specId v c := by
  have hdig : ∀ {n : Nat}, ∀ a ∈ natChars n, (a ≠ '.' : Bool) = true := by
    intro n a ha
    have := natChars_digits a ha
    simp only [decide_eq_true_eq]
    intro hEq
    rw [hEq] at this
    exact absurd this (by decide)
  unfold splitDotHead fnameChars specId
  rw [show ("vol".toList ++ natChars v ++ "_chap".toList ++ natChars c ++ ".xhtml".toList) =
    "vol".toList ++ (natChars v ++ ("_chap".toList ++ (natChars c ++ ".xhtml".toList))) by
      simp [List.append_assoc]]
  rw [takeWhile_append_all (by decide), takeWhile_append_all hdig]
  rw [show ("_chap".toList ++ (natChars c ++ ".xhtml".toList)).takeWhile (fun x => x ≠ '.') =
    "_chap".toList ++ (natChars c ++ ".xhtml".toList.takeWhile (fun x => x ≠ '.')) by
      rw [takeWhile_append_all (by decide), takeWhile_append_all hdig]]
  simp [List.append_assoc]

theorem manChaps_map_id (v : Nat) :
    ∀ (chaps : List Chapter) (c : Nat),
      (manChaps v c chaps).map ManifestItem.id =
        (enum1 c chaps).map (fun q => specId v q.1) := by
  intro chaps
  induction chaps with
  | nil => intro c; rfl
  | cons ch rest ih =>
    intro c
    simp only [manChaps, enum1, List.map_cons, splitDotHead_fname, ih (c + 1)]

theorem spineChaps_map_idref (v : Nat) :
    ∀ (chaps : List Chapter) (c : Nat),
      (spineChaps v c chaps).map SpineItem.idref =
        (enum1 c chaps).map (fun q => specId v q.1) := by
  intro chaps
  induction chaps with
  | nil => intro c; rfl
  | cons ch rest ih =>
    intro c
    simp only [spineChaps, enum1, List.map_cons, splitDotHead_fname, ih (c + 1)]

theorem manifestGo_map_id :
    ∀ (books : List Volume) (v : Nat),
      (manifestGo v books).map ManifestItem.id =
        (enum1 v books).flatMap (fun p => (enum1 1 p.2.chapters).map fun q => specId p.1 q.1) := by
  intro books
  induction books with
  | nil => intro v; rfl
  | cons vol rest ih =>
    intro v
    simp only [manifestGo, enum1, List.map_append, List.flatMap_cons, manChaps_map_id, ih (v + 1)]

theorem spineGo_map_idref :
    ∀ (books : List Volume) (v : Nat),
      (spineGo v books).map SpineItem.idref =
        (enum1 v books).flatMap (fun p => (enum1 1 p.2.chapters).map fun q => specId p.1 q.1) := by
  intro books
  induction books with
  | nil => intro v; rfl
  | cons vol rest ih =>
    intro v
    simp only [spineGo, enum1, List.map_append, List.flatMap_cons, spineChaps_map_idref, ih (v + 1)]

theorem manChaps_length (v : Nat) :
    ∀ (chaps : List Chapter) (c : Nat), (manChaps v c chaps).length = chaps.length := by
  intro chaps
  induction chaps with
  | nil => intro c; rfl
  | cons ch rest ih => intro c; simp [manChaps, ih (c + 1)]

theorem manifestGo_length :
    ∀ (books : List Volume) (v : Nat), (manifestGo v books).length = totalChaps books := by
  intro books
  induction books with
  | nil => intro v; rfl
  | cons vol rest ih =>
    intro v
    simp [manifestGo, totalChaps, manChaps_length, ih (v + 1)]

theorem spineChaps_length (v : Nat) :
    ∀ (chaps : List Chapter) (c : Nat), (spineChaps v c chaps).length = chaps.length := by
  intro chaps
  induction chaps with
  | nil => intro c; rfl
  | cons ch rest ih => intro c; simp [spineChaps, ih (c + 1)]

theorem spineGo_length :
    ∀ (books : List Volume) (v : Nat), (spineGo v books).length = totalChaps books := by
  intro books
  induction books with
  | nil => intro v; rfl
  | cons vol rest ih =>
    intro v
    simp [spineGo, totalChaps, spineChaps_length, ih (v + 1)]

/-- C2: for every book, the spine's `idref` sequence equals the
manifest's id sequence; that common sequence is exactly, in
book-traversal order (volume-major, chapter-minor), the identifier
`vol{N}_chap{M}` built from the 1-based volume and chapter positions;
and there is exactly one manifest entry and one spine entry per
chapter. -/
theorem c2_spine_equals_manifest (books : List Volume) :
    (spineOf books).map SpineItem.idref = (manifestOf books).map ManifestItem.id ∧
    (manifestOf books).map ManifestItem.id =
      (enum1 1 books).flatMap
        (fun p => (enum1 1 p.2.chapters).map fun q => specId p.1 q.1) ∧
    (manifestOf books).length = totalChaps books ∧
    (spineOf books).length = totalChaps books :=
  ⟨by rw [spineOf, manifestOf, manifestGo_map_id, spineGo_map_idref],
   manifestGo_map_id books 1, manifestGo_length books 1, spineGo_length books 1⟩

theorem chapNavs_map_navId (v : Nat) :
    ∀ (chaps : List Chapter) (c n : Nat),
      (chapNavs v c n chaps).map NavPoint.navId = List.range' n chaps.length := by
  intro chaps
  induction chaps with
  | nil => intro c n; rfl
  | cons ch rest ih =>
    intro c n
    simp only [chapNavs, List.map_cons, ih (c + 1) (n + 1), List.length_cons]
    rw [List.range'_succ]

theorem tocGo_map_navId :
    ∀ (books : List Volume) (v n : Nat),
      (tocGo v n books).map NavPoint.navId =
        List.range' n (books.length + totalChaps books) := by
  intro books
  induction books with
  | nil => intro v n; rfl
  | cons vol rest ih =>
    intro v n
    simp only [tocGo, List.map_cons, List.map_append, chapNavs_map_navId, ih (v + 1)]
    rw [List.range'_append_1 (n + 1) vol.chapters.length (rest.length + totalChaps rest)]
    have hc : (vol :: rest).length + totalChaps (vol :: rest) =
        (rest.length + totalChaps rest + vol.chapters.length) + 1 := by
      simp [totalChaps]
      omega
    rw [hc, List.range'_succ]

theorem chapNavs_map_label (v : Nat) :
    ∀ (chaps : List Chapter) (c n : Nat),
      (chapNavs v c n chaps).map (fun p => (p.isVolume, p.label)) =
        chaps.map (fun ch => (false, ch.title)) := by
  intro chaps
  induction chaps with
  | nil => intro c n; rfl
  | cons ch rest ih =>
    intro c n
    simp only [chapNavs, List.map_cons, ih (c + 1) (n + 1)]

theorem tocGo_map_label :
    ∀ (books : List Volume) (v n : Nat),
      (tocGo v n books).map (fun p => (p.isVolume, p.label)) =
        books.flatMap (fun vol => (true, vol.title) ::
          vol.chapters.map fun ch => (false, ch.title)) := by
  intro books
  induction books with
  | nil => intro v n; rfl
  | cons vol rest ih =>
    intro v n
    simp only [tocGo, List.map_cons, List.map_append, chapNavs_map_label, ih (v + 1),
      List.flatMap_cons]
    rfl

/-- C3: the play-order integers of the navigation points form the
contiguous sequence `1, 2, …, V + C` where `V` is the number of volumes
and `C` the total number of chapters, and they are assigned along the
depth-first traversal: each volume's point first, then one point per
chapter of that volume, before the next volume. -/
theorem c3_playorder_contiguous (books : List Volume) :
    (tocNav books).map NavPoint.navId =
      List.range' 1 (books.length + totalChaps books) ∧
    (tocNav books).map (fun p => (p.isVolume, p.label)) =
      books.flatMap (fun vol => (true, vol.title) ::
        vol.chapters.map fun ch => (false, ch.title)) :=
  ⟨tocGo_map_navId books 1 1, tocGo_map_label books 1 1⟩

/-- Helper: a digit block followed by a non-digit separator determines
a unique split of a character list. -/
theorem digits_split (xs : List Char) :
    ∀ {xs' : List Char} {b b' : Char} {t t' : List Char},
      (∀ a ∈ xs, a.isDigit = true) → (∀ a ∈ xs', a.isDigit = true) →
      b.isDigit = false → b'.isDigit = false →
      xs ++ b :: t = xs' ++ b' :: t' → xs = xs' ∧ b = b' ∧ t = t' := by
  induction xs with
  | nil =>
    intro xs' b b' t t' _ hx' hb hb' h
    cases xs' with
    | nil =>
      simp only [List.nil_append] at h
      injection h with h1 h2
      exact ⟨rfl, h1, h2⟩
    | cons a l =>
      simp only [List.nil_append, List.cons_append] at h
      injection h with h1 h2
      subst h1
      rw [hx' b (by simp)] at hb
      cases hb
  | cons a l ih =>
    intro xs' b b' t t' hx hx' hb hb' h
    cases xs' with
    | nil =>
      simp only [List.cons_append, List.nil_append] at h
      injection h with h1 h2
      subst h1
      rw [hx a (List.mem_cons_self a l)] at hb'
      cases hb'
    | cons a' l' =>
      simp only [List.cons_append] at h
      injection h with h1 h2
      subst h1
      obtain ⟨e1, e2, e3⟩ := ih (fun x hx2 => hx x (by simp [hx2]))
        (fun x hx2 => hx' x (by simp [hx2])) hb hb' h2
      exact ⟨by rw [e1], e2, e3⟩

/-- Reassociated shape of a chapter file name used for injectivity. -/
theorem fname_shape (x y : Nat) :
    fnameChars x y = "vol".toList ++ (natChars x ++
      ('_' :: ("chap".toList ++ (natChars y ++ ('.' :: "xhtml".toList))))) := by
  have h1 : "_chap".toList = '_' :: "chap".toList := by decide
  have h2 : ".xhtml".toList = '.' :: "xhtml".toList := by decide
  simp [fnameChars, h1, h2, List.append_assoc]

/-- Chapter file names determine their volume and chapter indices. -/
theorem fname_inj {a b a' b' : Nat} (h : fnameChars a b = fnameChars a' b') :
    a = a' ∧ b = b' := by
  rw [fname_shape, fname_shape] at h
  have h1 := List.append_cancel_left h
  obtain ⟨e1, -, e3⟩ := digits_split (natChars a)
    (fun c hc => natChars_digits c hc) (fun c hc => natChars_digits c hc)
    (by decide) (by decide) h1
  have h2 := List.append_cancel_left e3
  obtain ⟨e4, -, -⟩ := digits_split (natChars b)
    (fun c hc => natChars_digits c hc) (fun c hc => natChars_digits c hc)
    (by decide) (by decide) h2
  exact ⟨natChars_injective e1, natChars_injective e4⟩

theorem chapNavs_filter_isVolume (v : Nat) :
    ∀ (chaps : List Chapter) (c n : Nat),
      (chapNavs v c n chaps).filter (fun p => p.isVolume) = [] := by
  intro chaps
  induction chaps with
  | nil => intro c n; rfl
  | cons ch rest ih =>
    intro c n
    simp only [chapNavs, List.filter_cons, ih (c + 1) (n + 1)]
    rfl

theorem tocGo_filter_src :
    ∀ (books : List Volume) (v n : Nat),
      (((tocGo v n books).filter (fun p => p.isVolume)).map NavPoint.src) =
        (List.range' v books.length).map (fun w => fnameChars w 1) := by
  intro books
  induction books with
  | nil => intro v n; rfl
  | cons vol rest ih =>
    intro v n
    simp only [tocGo, List.filter_cons, List.filter_append, chapNavs_filter_isVolume,
      List.nil_append, List.length_cons]
    rw [List.range'_succ]
    simp [ih (v + 1)]

theorem mem_manChaps_href (v : Nat) :
    ∀ (chaps : List Chapter) (c : Nat) (x : List Char),
      x ∈ (manChaps v c chaps).map ManifestItem.href →
        ∃ k, k < chaps.length ∧ x = fnameChars v (c + k) := by
  intro chaps
  induction chaps with
  | nil => intro c x hx; cases hx
  | cons ch rest ih =>
    intro c x hx
    simp only [manChaps, List.map_cons, List.mem_cons] at hx
    rcases hx with hx | hx
    · exact ⟨0, by simp, by simpa using hx⟩
    · obtain ⟨k, hk, he⟩ := ih (c + 1) x hx
      exact ⟨k + 1, by simp [hk], by rw [he]; congr 1; omega⟩

theorem mem_manifestGo_href :
    ∀ (books : List Volume) (v : Nat) (x : List Char),
      x ∈ (manifestGo v books).map ManifestItem.href →
        ∃ j, ∃ hj : j < books.length, ∃ k,
          k < (books.get ⟨j, hj⟩).chapters.length ∧ x = fnameChars (v + j) (1 + k) := by
  intro books
  induction books with
  | nil => intro v x hx; cases hx
  | cons vol rest ih =>
    intro v x hx
    simp only [manifestGo, List.map_append, List.mem_append] at hx
    rcases hx with hx | hx
    · obtain ⟨k, hk, he⟩ := mem_manChaps_href v vol.chapters 1 x hx
      exact ⟨0, by simp, k, by simpa using hk, by simpa using he⟩
    · obtain ⟨j, hj, k, hk, he⟩ := ih (v + 1) x hx
      refine ⟨j + 1, by simpa using hj, k, by simpa using hk, ?_⟩
      rw [he]; congr 1; omega

/-- C8: for every volume the navigation generator emits exactly one
volume-level navigation point, in order, whose content reference is
`vol{N}_chap1.xhtml` (the volume's first chapter document; volumes have
no standalone page); and when a volume has no chapters that referenced
file is not among the chapter documents recorded in the manifest — a
dangling reference. -/
theorem c8_volume_navpoints (books : List Volume) :
    (((tocNav books).filter (fun p => p.isVolume)).map NavPoint.src =
      (List.range' 1 books.length).map (fun v => fnameChars v 1)) ∧
    ∀ (i : Nat) (hi : i < books.length), (books.get ⟨i, hi⟩).chapters = [] →
      fnameChars (i + 1) 1 ∉ (manifestOf books).map ManifestItem.href := by
  refine ⟨tocGo_filter_src books 1 1, ?_⟩
  intro i hi hempty hmem
  obtain ⟨j, hj, k, hk, he⟩ := mem_manifestGo_href books 1 _ hmem
  obtain ⟨e1, e2⟩ := fname_inj he
  have hji : j = i := by omega
  subst hji
  rw [hempty] at hk
  simp at hk

/-- Witness for C8: a two-volume book whose second volume is empty; the
volume points reference `vol1_chap1.xhtml` and `vol2_chap1.xhtml`, and
the latter is not a generated chapter document. -/
theorem c8_volume_navpoints_witness :
    (((tocNav [⟨"一".toList, [⟨"甲".toList, []⟩]⟩, ⟨"二".toList, []⟩]).filter
        (fun p => p.isVolume)).map NavPoint.src =
      (List.range' 1 2).map (fun v => fnameChars v 1)) ∧
    fnameChars 2 1 ∉
      (manifestOf [⟨"一".toList, [⟨"甲".toList, []⟩]⟩, ⟨"二".toList, []⟩]).map
        ManifestItem.href :=
  ⟨(c8_volume_navpoints _).1,
   (c8_volume_navpoints [⟨"一".toList, [⟨"甲".toList, []⟩]⟩, ⟨"二".toList, []⟩]).2
     1 (by decide) (by decide)⟩

/-- C7 counterexample: the single line `'正文行'` matches the claim's
chapter-header pattern, yet parsing produces no chapter at all (there
is no current volume), so the chapter count does not equal the count of
pattern-matching lines. -/
theorem c7_count_cex :
    parseLoop initState ["正文行".toList] = some initState ∧
    totalChaps (booksOf initState) = 0 ∧
    (["正文行".toList].map rstripNL).countP claimChapPattern = 1 := by
  refine ⟨by decide, by decide, by decide⟩

/-- Sum of chapter counts distributes over appended volume lists. -/
theorem totalChaps_append (a b : List Volume) :
    totalChaps (a ++ b) = totalChaps a + totalChaps b := by
  simp [totalChaps]

/-- Processing one line preserves the invariant that every chapter in
the book tree has a non-empty title. -/
theorem parseLine_titles {st st' : ParseState} {line : List Char}
    {next? : Option (List Char)} (h : parseLine st line next? = some st')
    (hinv : ∀ vol ∈ booksOf st, ∀ ch ∈ vol.chapters, ch.title ≠ []) :
    ∀ vol ∈ booksOf st', ∀ ch ∈ vol.chapters, ch.title ≠ [] := by
  by_cases h1 : line = metaDelim
  · simp only [parseLine, if_pos h1] at h
    injection h with h
    subst h
    exact hinv
  · cases hms : st.metaSection with
    | true =>
      have hms' : st.metaSection = true := hms
      simp only [parseLine, if_neg h1, hms', if_true] at h
      by_cases h2 : titleMarker.isPrefixOf line = true
      · rw [if_pos h2] at h; injection h with h; subst h; exact hinv
      · rw [if_neg h2] at h
        by_cases h3 : authorMarker.isPrefixOf line = true
        · rw [if_pos h3] at h; injection h with h; subst h; exact hinv
        · rw [if_neg h3] at h
          by_cases h4 : descrMarker.isPrefixOf line = true
          · rw [if_pos h4] at h
            cases next? with
            | none => cases h
            | some nxt => injection h with h; subst h; exact hinv
          · rw [if_neg h4] at h; injection h with h; subst h; exact hinv
    | false =>
      have hms' : ¬(st.metaSection = true) := by simp [hms]
      simp only [parseLine, if_neg h1, if_neg hms'] at h
      cases hv : volMatch line with
      | some vt =>
        simp only [hv] at h
        injection h with h
        subst h
        intro vol hvol ch hch
        simp only [booksOf, List.mem_append] at hvol
        rcases hvol with (hmem | hmem) | hmem
        · exact hinv vol (List.mem_append.mpr (Or.inl hmem)) ch hch
        · exact hinv vol (List.mem_append.mpr (Or.inr hmem)) ch hch
        · simp at hmem
          subst hmem
          simp [closePV] at hch
      | none =>
        cases hov : st.openVolume with
        | none => simp only [hv, hov] at h; injection h with h; subst h; exact hinv
        | some pv =>
          simp only [hv, hov] at h
          have hbooks : booksOf st = st.closedVolumes ++ [closePV pv] := by
            simp [booksOf, hov]
          by_cases hc : (!startsIndent line && !(pyStrip line).isEmpty) = true
          · rw [if_pos hc] at h
            injection h with h
            subst h
            intro vol hvol ch hch
            simp only [booksOf, List.mem_append] at hvol
            rcases hvol with hmem | hmem
            · exact hinv vol (hbooks ▸ List.mem_append.mpr (Or.inl hmem)) ch hch
            · simp at hmem
              subst hmem
              simp only [closePV, Option.toList_some, List.mem_append,
                List.mem_singleton] at hch
              rcases hch with (hch2 | hch2) | hch2
              · exact hinv (closePV pv)
                  (hbooks ▸ List.mem_append.mpr (Or.inr (List.mem_singleton_self _))) ch
                  (List.mem_append.mpr (Or.inl hch2))
              · exact hinv (closePV pv)
                  (hbooks ▸ List.mem_append.mpr (Or.inr (List.mem_singleton_self _))) ch
                  (List.mem_append.mpr (Or.inr hch2))
              · subst hch2
                intro hcontra
                simp at hc hcontra
                exact hc.2 hcontra
          · rw [if_neg hc] at h
            cases hoc : pv.openChapter with
            | some ch0 =>
              simp only [hoc] at h
              injection h with h
              subst h
              intro vol hvol ch hch
              simp only [booksOf, List.mem_append] at hvol
              rcases hvol with hmem | hmem
              · exact hinv vol (hbooks ▸ List.mem_append.mpr (Or.inl hmem)) ch hch
              · simp at hmem
                subst hmem
                simp only [closePV, Option.toList_some, List.mem_append,
                  List.mem_singleton] at hch
                rcases hch with hch2 | hch2
                · exact hinv (closePV pv)
                    (hbooks ▸ List.mem_append.mpr (Or.inr (List.mem_singleton_self _))) ch
                    (List.mem_append.mpr (Or.inl hch2))
                · subst hch2
                  exact hinv (closePV pv)
                    (hbooks ▸ List.mem_append.mpr (Or.inr (List.mem_singleton_self _))) ch0
                    (by simp [closePV, hoc])
            | none =>
              simp only [hoc] at h
              injection h with h
              subst h
              exact hinv

/-- The whole parsing loop preserves the non-empty-title invariant. -/
theorem parseLoop_titles :
    ∀ (lines : List (List Char)) (st st' : ParseState),
      parseLoop st lines = some st' →
      (∀ vol ∈ booksOf st, ∀ ch ∈ vol.chapters, ch.title ≠ []) →
      ∀ vol ∈ booksOf st', ∀ ch ∈ vol.chapters, ch.title ≠ [] := by
  intro lines
  induction lines with
  | nil =>
    intro st st' h hinv
    simp only [parseLoop] at h
    injection h with h
    subst h
    exact hinv
  | cons l rest ih =>
    intro st st' h hinv
    simp only [parseLoop] at h
    cases hstep : parseLine st (rstripNL l) rest.head? with
    | none => rw [hstep] at h; cases h
    | some st2 =>
      rw [hstep] at h
      exact ih st2 st' h (parseLine_titles hstep hinv)

/-- Counting lemma for the scanning loop once a current volume exists:
with no delimiter line remaining, the loop succeeds, every
volume-header line adds exactly one volume, and every chapter-shaped
line adds exactly one chapter. -/
theorem parseLoop_counts_go (lines : List (List Char)) :
    ∀ (st : ParseState) (pv : PartialVolume), st.metaSection = false →
      st.openVolume = some pv →
      (∀ l ∈ lines, rstripNL l ≠ metaDelim) →
      ∃ st', parseLoop st lines = some st' ∧
        (booksOf st').length = (booksOf st).length +
          (lines.map rstripNL).countP (fun l => (volMatch l).isSome) ∧
        totalChaps (booksOf st') = totalChaps (booksOf st) +
          (lines.map rstripNL).countP isChapShape := by
  induction lines with
  | nil =>
    intro st pv hms hov _
    exact ⟨st, rfl, by simp, by simp⟩
  | cons l rest ih =>
    intro st pv hms hov hnd
    have hndl : rstripNL l ≠ metaDelim := hnd l (by simp)
    have hndr : ∀ l' ∈ rest, rstripNL l' ≠ metaDelim := fun l' hl' => hnd l' (by simp [hl'])
    cases hv : volMatch (rstripNL l) with
    | some vt =>
      have hstep : parseLine st (rstripNL l) rest.head? =
          some { st with
            closedVolumes := st.closedVolumes ++ (st.openVolume.map closePV).toList,
            openVolume := some ⟨vt, [], none⟩ } := by
        simp only [parseLine, if_neg hndl, hms, Bool.false_eq_true, if_false, hv]
      obtain ⟨st', h1, h2, h3⟩ := ih
        { st with
          closedVolumes := st.closedVolumes ++ (st.openVolume.map closePV).toList,
          openVolume := some ⟨vt, [], none⟩ } ⟨vt, [], none⟩ hms rfl hndr
      refine ⟨st', by simp only [parseLoop, hstep, h1], ?_, ?_⟩
      · rw [h2]
        simp [booksOf, hov, List.countP_cons, hv]
        omega
      · rw [h3]
        simp [booksOf, totalChaps, hov, closePV, List.countP_cons, hv, isChapShape]
    | none =>
      by_cases hc : (!startsIndent (rstripNL l) && !(pyStrip (rstripNL l)).isEmpty) = true
      · have hstep : parseLine st (rstripNL l) rest.head? =
            some { st with openVolume := some ⟨pv.title,
              pv.closedChapters ++ pv.openChapter.toList,
              some ⟨pyStrip (rstripNL l), []⟩⟩ } := by
          simp only [parseLine, if_neg hndl, hms, Bool.false_eq_true, if_false, hv, hov,
            hc, if_true]
        obtain ⟨st', h1, h2, h3⟩ := ih
          { st with openVolume := some ⟨pv.title,
            pv.closedChapters ++ pv.openChapter.toList,
            some ⟨pyStrip (rstripNL l), []⟩⟩ }
          ⟨pv.title, pv.closedChapters ++ pv.openChapter.toList,
            some ⟨pyStrip (rstripNL l), []⟩⟩ hms rfl hndr
        refine ⟨st', by simp only [parseLoop, hstep, h1], ?_, ?_⟩
        · rw [h2]
          simp [booksOf, hov, List.countP_cons, hv]
        · rw [h3]
          have hshape : isChapShape (rstripNL l) = true := by
            simp only [isChapShape, hv, Bool.and_eq_true]
            exact ⟨Bool.and_eq_true _ _ |>.mp hc, by simp⟩
          simp [booksOf, totalChaps, hov, closePV, List.countP_cons, hshape]
          omega
      · have hshape : isChapShape (rstripNL l) = false := by
          simp only [isChapShape]
          rcases Bool.and_eq_false_iff.mp (Bool.not_eq_true _ |>.mp hc) with h | h
          · simp [Bool.and_eq_false_iff, h]
          · simp [Bool.and_eq_false_iff, h]
        cases hoc : pv.openChapter with
        | some ch0 =>
          have hstep : parseLine st (rstripNL l) rest.head? =
              some { st with openVolume := some ⟨pv.title, pv.closedChapters,
                some ⟨ch0.title, ch0.content ++ [rstripNL l]⟩⟩ } := by
            simp only [parseLine, if_neg hndl, hms, Bool.false_eq_true, if_false, hv, hov,
              hoc]
            simp [hc, hoc]
          obtain ⟨st', h1, h2, h3⟩ := ih
            { st with openVolume := some ⟨pv.title, pv.closedChapters,
              some ⟨ch0.title, ch0.content ++ [rstripNL l]⟩⟩ }
            ⟨pv.title, pv.closedChapters,
              some ⟨ch0.title, ch0.content ++ [rstripNL l]⟩⟩ hms rfl hndr
          refine ⟨st', by simp only [parseLoop, hstep, h1], ?_, ?_⟩
          · rw [h2]
            simp [booksOf, hov, List.countP_cons, hv]
          · rw [h3]
            simp [booksOf, totalChaps, hov, closePV, List.countP_cons, hshape, hoc]
        | none =>
          have hstep : parseLine st (rstripNL l) rest.head? = some st := by
            simp only [parseLine, if_neg hndl, hms, Bool.false_eq_true, if_false, hv, hov,
              hoc]
            simp [hc, hoc]
          obtain ⟨st', h1, h2, h3⟩ := ih st pv hms hov hndr
          refine ⟨st', by simp only [parseLoop, hstep, h1], ?_, ?_⟩
          · rw [h2]; simp [List.countP_cons, hv]
          · rw [h3]; simp [List.countP_cons, hshape]

/-- Counting lemma for the scanning loop before any volume exists:
lines are dropped until the first volume header, after which
`parseLoop_counts_go` applies. -/
theorem parseLoop_counts_start (lines : List (List Char)) :
    ∀ (st : ParseState), st.metaSection = false → st.openVolume = none →
      st.closedVolumes = [] →
      (∀ l ∈ lines, rstripNL l ≠ metaDelim) →
      ∃ st', parseLoop st lines = some st' ∧
        (booksOf st').length = (lines.map rstripNL).countP (fun l => (volMatch l).isSome) ∧
        totalChaps (booksOf st') = countChapAfterVol (lines.map rstripNL) := by
  induction lines with
  | nil =>
    intro st hms hov hcv _
    exact ⟨st, rfl, by simp [booksOf, hov, hcv], by simp [booksOf, hov, hcv, totalChaps,
      countChapAfterVol]⟩
  | cons l rest ih =>
    intro st hms hov hcv hnd
    have hndl : rstripNL l ≠ metaDelim := hnd l (by simp)
    have hndr : ∀ l' ∈ rest, rstripNL l' ≠ metaDelim := fun l' hl' => hnd l' (by simp [hl'])
    cases hv : volMatch (rstripNL l) with
    | some vt =>
      have hstep : parseLine st (rstripNL l) rest.head? =
          some { st with
            closedVolumes := st.closedVolumes ++ (st.openVolume.map closePV).toList,
            openVolume := some ⟨vt, [], none⟩ } := by
        simp only [parseLine, if_neg hndl, hms, Bool.false_eq_true, if_false, hv]
      obtain ⟨st', h1, h2, h3⟩ := parseLoop_counts_go rest
        { st with
          closedVolumes := st.closedVolumes ++ (st.openVolume.map closePV).toList,
          openVolume := some ⟨vt, [], none⟩ } ⟨vt, [], none⟩ hms rfl hndr
      refine ⟨st', by simp only [parseLoop, hstep, h1], ?_, ?_⟩
      · rw [h2]
        simp [booksOf, hov, hcv, List.countP_cons, hv]
        omega
      · rw [h3]
        simp only [List.map_cons, countChapAfterVol, hv, Option.isSome_some, if_true]
        simp [booksOf, totalChaps, hov, hcv, closePV]
    | none =>
      have hstep : parseLine st (rstripNL l) rest.head? = some st := by
        simp only [parseLine, if_neg hndl, hms, Bool.false_eq_true, if_false, hv, hov]
      obtain ⟨st', h1, h2, h3⟩ := ih st hms hov hcv hndr
      refine ⟨st', by simp only [parseLoop, hstep, h1], ?_, ?_⟩
      · rw [h2]; simp [List.countP_cons, hv]
      · rw [h3]
        simp only [List.map_cons, countChapAfterVol, hv, Option.isSome_none]
        simp

/-- C7 (amended): every chapter produced by the parser has a non-empty
title (titles are trimmed header lines, which the header condition
forces non-empty), and each chapter sits at exactly one position of the
volume tree, so the total chapter count is the sum over volumes.  The
count identities hold in context: for inputs containing no
metadata-delimiter line, the number of volumes equals the number of
lines matching the volume-header pattern, and the number of chapters
equals the number of chapter-shaped lines (non-indented, non-blank,
not volume headers) occurring after the first volume-header line. -/
theorem c7_chapter_counts_amended (lines : List (List Char)) :
    (∀ st', parseLoop initState lines = some st' →
      ∀ vol ∈ booksOf st', ∀ ch ∈ vol.chapters, ch.title ≠ []) ∧
    ((∀ l ∈ lines, rstripNL l ≠ metaDelim) →
      ∃ st', parseLoop initState lines = some st' ∧
        (booksOf st').length =
          (lines.map rstripNL).countP (fun l => (volMatch l).isSome) ∧
        totalChaps (booksOf st') = countChapAfterVol (lines.map rstripNL)) := by
  constructor
  · intro st' h
    exact parseLoop_titles lines initState st' h (by intro vol hvol; cases hvol)
  · intro hnd
    exact parseLoop_counts_start lines initState rfl rfl rfl hnd

/-- Witness for the amended C7: two volume headers and one chapter
line give two volumes and one chapter, matching the syntactic
counts. -/
theorem c7_chapter_counts_amended_witness :
    ∃ st', parseLoop initState
        ["[卷名] 甲".toList, "序言".toList, "[卷名] 乙".toList] = some st' ∧
      (booksOf st').length = 2 ∧ totalChaps (booksOf st') = 1 := by
  obtain ⟨st', h1, h2, h3⟩ :=
    (c7_chapter_counts_amended
      ["[卷名] 甲".toList, "序言".toList, "[卷名] 乙".toList]).2 (by decide)
  refine ⟨st', h1, ?_, ?_⟩
  · rw [h2]; decide
  · rw [h3]; decide

/-- C9 counterexample: `zipfile.ZipFile(output, 'w')` keeps the default
`ZIP_STORED` compression and `zf.write(path, arcname)` passes no
`compress_type`, so the entries after `mimetype` are written stored,
not compressed: the claim's "compressed form" fails already on this
two-file walk. -/
theorem c9_not_compressed_cex :
    ¬ ∀ e ∈ (zip_epub c9Walk).tail, e.compress = Compression.deflated := by decide

/-- C9 (amended): the archiver writes the fixed-name `mimetype` entry
first, stored without compression, and writes every other walked file
after it with the archive's default compression — `ZIP_STORED`, i.e.
also uncompressed — each under its path relative to the generation
root `epub`. -/
theorem c9_archive_amended (walked : List (List Char × List Char)) :
    (zip_epub walked).head? = some mimetypeEntry ∧
    mimetypeEntry.arcname = "mimetype".toList ∧
    mimetypeEntry.compress = Compression.stored ∧
    ∀ e ∈ (zip_epub walked).tail, e.compress = Compression.stored ∧
      ∃ rf ∈ walked, rf.2 ≠ "mimetype".toList ∧
        e.arcname = relToEpub (joinPath rf.1 rf.2) := by
  refine ⟨rfl, rfl, rfl, ?_⟩
  intro e he
  simp only [zip_epub, List.tail_cons, List.mem_map, List.mem_filter] at he
  obtain ⟨rf, ⟨hw, hp⟩, hfe⟩ := he
  subst hfe
  exact ⟨rfl, rf, hw, by simpa using hp, rfl⟩

/-- Witness for the amended C9: on a concrete walk, the head entry is
the stored `mimetype` and the entry for `epub/OEBPS/toc.ncx` is stored
under the relative path `OEBPS/toc.ncx`. -/
theorem c9_archive_amended_witness :
    (zip_epub [("epub".toList, "mimetype".toList),
      ("epub/OEBPS".toList, "toc.ncx".toList)]).head? = some mimetypeEntry ∧
    (ZipEntry.mk "OEBPS/toc.ncx".toList zipFileDefault).compress = Compression.stored :=
  ⟨(c9_archive_amended [("epub".toList, "mimetype".toList),
      ("epub/OEBPS".toList, "toc.ncx".toList)]).1,
   ((c9_archive_amended [("epub".toList, "mimetype".toList),
      ("epub/OEBPS".toList, "toc.ncx".toList)]).2.2.2
     ⟨"OEBPS/toc.ncx".toList, zipFileDefault⟩ (by decide)).1⟩

theorem colonMap_id {cs : List Char} (h : ∀ c ∈ cs, c ≠ '：') : colonMap cs = cs := by
  induction cs with
  | nil => rfl
  | cons c rest ih =>
    have h1 : (if c = '：' then ':' else c) = c := if_neg (h c (by simp))
    show (if c = '：' then ':' else c) :: colonMap rest = c :: rest
    rw [h1, ih fun d hd => h d (by simp [hd])]

theorem reSubImgFuel_nil : ∀ fuel, reSubImgFuel fuel [] = []
  | 0 => rfl
  | _ + 1 => rfl

theorem ciEq_self (c : Char) : ciEq c c = true := by simp [ciEq]

theorem ciIsPrefix_append_self (pat : List Char) (rest : List Char) :
    ciIsPrefix pat (pat ++ rest) = true := by
  induction pat with
  | nil => rfl
  | cons p ps ih => simp [ciIsPrefix, ciEq_self, ih]

theorem ciIsPrefix_length {pat cs : List Char} (h : ciIsPrefix pat cs = true) :
    pat.length ≤ cs.length := by
  induction pat generalizing cs with
  | nil => simp
  | cons p ps ih =>
    cases cs with
    | nil => cases h
    | cons c rest =>
      simp only [ciIsPrefix, Bool.and_eq_true] at h
      simpa using ih h.2

theorem ciEq_bracket {c : Char} (h : c ≠ '[') : ciEq '[' c = false := by
  simp only [ciEq, Bool.or_eq_false_iff]
  constructor
  · simp only [decide_eq_false_iff_not]
    exact fun he => h he.symm
  · have h2 : '['.isLower = false := by decide
    simp [h2]

theorem tryMatch_no_bracket {c : Char} {rest : List Char} (h : c ≠ '[') :
    tryMatch (c :: rest) = none := by
  have : ciIsPrefix imgOpen (c :: rest) = false := by
    simp only [imgOpen]
    show ciIsPrefix ('[' :: "img=".toList) (c :: rest) = false
    simp [ciIsPrefix, ciEq_bracket h]
  simp [tryMatch, this]

theorem reSubImgFuel_no_bracket {cs : List Char} :
    '[' ∉ cs → ∀ fuel, cs.length ≤ fuel → reSubImgFuel fuel cs = cs := by
  induction cs with
  | nil => intro _ fuel _; exact reSubImgFuel_nil fuel
  | cons c rest ih =>
    intro hnb fuel hlen
    have hc : c ≠ '[' := fun he => hnb (by simp [he])
    cases fuel with
    | zero => simp at hlen
    | succ fuel =>
      simp only [reSubImgFuel, tryMatch_no_bracket hc]
      rw [ih (fun hm => hnb (by simp [hm])) fuel (by simpa using hlen)]

theorem c4_no_bracket_id {t : List Char} (h : '[' ∉ t) :
    process_images t = colonMap t := by
  have hnb : '[' ∉ colonMap t := by
    intro hm
    simp only [colonMap, List.mem_map] at hm
    obtain ⟨c, hc, he⟩ := hm
    by_cases h2 : c = '：'
    · rw [if_pos h2] at he; cases he
    · rw [if_neg h2] at he; exact h (he ▸ hc)
  unfold process_images reSubImg
  exact reSubImgFuel_no_bracket hnb _ (le_refl _)

theorem sep_not_digit {c : Char} (h : isSep c = true) : c.isDigit = false := by
  simp only [isSep, Bool.or_eq_true, decide_eq_true_eq] at h
  rcases h with (h | h) | h <;> subst h <;> decide

theorem digit_not_sep {c : Char} (h : c.isDigit = true) : isSep c = false := by
  cases hs : isSep c
  · rfl
  · rw [sep_not_digit hs] at h; cases h

theorem digit_ne {c d : Char} (h : c.isDigit = true) (hd : d.isDigit = false) : c ≠ d :=
  fun he => by rw [he, hd] at h; cases h

theorem sep_chars {c : Char} (h : isSep c = true) : c = '，' ∨ c = ',' ∨ c = ' ' := by
  simp only [isSep, Bool.or_eq_true, decide_eq_true_eq] at h
  tauto

theorem parseDims_canonical (w hgt rest : List Char) (sep : Char)
    (hw : w ≠ []) (hwd : ∀ c ∈ w, c.isDigit = true)
    (hh : hgt ≠ []) (hhd : ∀ c ∈ hgt, c.isDigit = true)
    (hs : isSep sep = true) :
    parseDims (w ++ sep :: (hgt ++ ']' :: rest)) =
      some (w, hgt, w.length + (1 + (hgt.length + 1))) := by
  have e1 : (w ++ sep :: (hgt ++ ']' :: rest)).takeWhile Char.isDigit = w := by
    rw [takeWhile_append_all hwd, takeWhile_cons_false (sep_not_digit hs), List.append_nil]
  have e2 : w.isEmpty = false := by
    cases w with | nil => exact absurd rfl hw | cons a l => rfl
  have e3 : (w ++ sep :: (hgt ++ ']' :: rest)).drop w.length = sep :: (hgt ++ ']' :: rest) :=
    List.drop_left w _
  have e4 : (sep :: (hgt ++ ']' :: rest)).takeWhile isSep = [sep] := by
    cases hgt with
    | nil => exact absurd rfl hh
    | cons a l =>
      have hnd : isSep a = false := digit_not_sep (hhd a (by simp))
      simp only [List.takeWhile_cons, hs, if_true, List.cons_append,
        takeWhile_cons_false hnd]
  have e6 : (hgt ++ ']' :: rest).takeWhile Char.isDigit = hgt := by
    rw [takeWhile_append_all hhd,
      takeWhile_cons_false (by decide : (']' : Char).isDigit = false), List.append_nil]
  have e7 : hgt.isEmpty = false := by
    cases hgt with | nil => exact absurd rfl hh | cons a l => rfl
  have e8 : (hgt ++ ']' :: rest).drop hgt.length = ']' :: rest := List.drop_left hgt _
  simp only [parseDims, e1, e2, Bool.false_eq_true, if_false, e3, e4, List.drop_one,
    List.tail_cons, e6, e7, e8, List.isEmpty_cons, List.length_singleton]

theorem findStop_canonical (content : List Char) (hnl : '\n' ∉ content)
    (hstop : ∀ k, k < content.length →
      ciIsPrefix stopTag (content.drop k ++ stopTag) = false) :
    findStop (content ++ stopTag) = some content.length := by
  induction content with
  | nil => decide
  | cons c cs ih =>
    have h0 : ciIsPrefix stopTag (c :: (cs ++ stopTag)) = false := by
      have := hstop 0 (by simp)
      simpa using this
    have hcn : c ≠ '\n' := fun he => hnl (by simp [he])
    have ihr := ih (fun hm => hnl (by simp [hm]))
      (fun k hk => by
        have := hstop (k + 1) (by simp; omega)
        simpa using this)
    show findStop (c :: (cs ++ stopTag)) = some (cs.length + 1)
    simp only [findStop, h0, Bool.false_eq_true, if_false, if_neg hcn, ihr]
    rfl

theorem tryMatch_canonical (w hgt content : List Char) (sep : Char)
    (hw : w ≠ []) (hwd : ∀ c ∈ w, c.isDigit = true)
    (hh : hgt ≠ []) (hhd : ∀ c ∈ hgt, c.isDigit = true)
    (hs : isSep sep = true) (hnl : '\n' ∉ content)
    (hstop : ∀ k, k < content.length →
      ciIsPrefix stopTag (content.drop k ++ stopTag) = false) :
    tryMatch ("[img=".toList ++ (w ++ sep :: (hgt ++ ']' :: (content ++ stopTag)))) =
      some (imgReplace w hgt content,
        5 + (w.length + (1 + (hgt.length + 1))) + (content.length + 6)) := by
  have hpre : ciIsPrefix imgOpen
      ("[img=".toList ++ (w ++ sep :: (hgt ++ ']' :: (content ++ stopTag)))) = true :=
    ciIsPrefix_append_self imgOpen _
  have hdrop5 : ("[img=".toList ++ (w ++ sep :: (hgt ++ ']' :: (content ++ stopTag)))).drop 5 =
      w ++ sep :: (hgt ++ ']' :: (content ++ stopTag)) := by
    have h5 : ("[img=".toList : List Char).length = 5 := rfl
    rw [← h5, List.drop_left]
  have hpd := parseDims_canonical w hgt (content ++ stopTag) sep hw hwd hh hhd hs
  have hdropn : (w ++ sep :: (hgt ++ ']' :: (content ++ stopTag))).drop
      (w.length + (1 + (hgt.length + 1))) = content ++ stopTag := by
    have hsplit : w ++ sep :: (hgt ++ ']' :: (content ++ stopTag)) =
        (w ++ sep :: (hgt ++ [']'])) ++ (content ++ stopTag) := by simp
    have hlen : (w ++ sep :: (hgt ++ [']'])).length = w.length + (1 + (hgt.length + 1)) := by
      simp
      omega
    rw [hsplit, ← hlen, List.drop_left]
  have hfs := findStop_canonical content hnl hstop
  have htake : (content ++ stopTag).take content.length = content :=
    List.take_left content stopTag
  simp only [tryMatch, hpre, if_true, hdrop5, hpd, hdropn, hfs, htake]

theorem reSubImg_single {cs rep : List Char} {n : Nat} (h : tryMatch cs = some (rep, n))
    (hn : n = cs.length) : reSubImg cs = rep := by
  cases cs with
  | nil => rw [show tryMatch ([] : List Char) = none from rfl] at h; cases h
  | cons c t =>
    show reSubImgFuel (t.length + 1) (c :: t) = rep
    simp only [reSubImgFuel, h, hn]
    rw [List.drop_length, reSubImgFuel_nil, List.append_nil]

/-- C4: the inline transformer first replaces every full-width colon by
an ASCII colon — also on lines with no image tag — and then rewrites
image tags case-insensitively.  The first conjunct treats the general
tag `[img=W{sep}H]TEXT[/img]` with `W`, `H` non-empty digit sequences
and the separator a comma, full-width comma or space, for any `TEXT`
free of newlines, full-width colons and closing tags; the remaining
conjuncts give a bracket-free pass-through law and the concrete
examples from the specification. -/
theorem c4_inline_transformer :
    (∀ (w hgt content : List Char) (sep : Char),
      w ≠ [] → hgt ≠ [] →
      (∀ c ∈ w, c.isDigit = true) → (∀ c ∈ hgt, c.isDigit = true) →
      isSep sep = true → '：' ∉ content → '\n' ∉ content →
      (∀ k, k < content.length →
        ciIsPrefix stopTag (content.drop k ++ stopTag) = false) →
      process_images
          ("[img=".toList ++ (w ++ sep :: (hgt ++ ']' :: (content ++ stopTag)))) =
        imgReplace w hgt content) ∧
    (∀ t, '[' ∉ t → process_images t = colonMap t) ∧
    process_images "[img=100,200]pic.png[/img]".toList =
      "<img src=\"pic.png\" width=\"100\" height=\"200\"/>".toList ∧
    process_images "[IMG=100 200]x[/img]".toList =
      "<img src=\"x\" width=\"100\" height=\"200\"/>".toList ∧
    process_images "没有图片".toList = "没有图片".toList ∧
    process_images "时间：下午".toList = "时间:下午".toList := by
  refine ⟨?_, fun t ht => c4_no_bracket_id ht, by decide, by decide, by decide, by decide⟩
  intro w hgt content sep hw hh hwd hhd hs hcc hnl hstop
  have hcf : ∀ c ∈ ("[img=".toList ++
      (w ++ sep :: (hgt ++ ']' :: (content ++ stopTag)))), c ≠ '：' := by
    intro c hc
    simp only [List.mem_append, List.mem_cons] at hc
    rcases hc with hc | hc | hc | hc | hc | hc | hc
    · exact (by decide : ∀ d ∈ ("[img=".toList : List Char), d ≠ '：') c hc
    · exact digit_ne (hwd c hc) (by decide)
    · subst hc
      rcases sep_chars hs with h | h | h <;> rw [h] <;> decide
    · exact digit_ne (hhd c hc) (by decide)
    · subst hc; decide
    · exact fun he => hcc (he ▸ hc)
    · exact (by decide : ∀ d ∈ (stopTag : List Char), d ≠ '：') c hc
  show reSubImg (colonMap _) = _
  rw [colonMap_id hcf]
  refine reSubImg_single (tryMatch_canonical w hgt content sep hw hwd hh hhd hs hnl hstop) ?_
  have l1 : ("[img=".toList : List Char).length = 5 := rfl
  have l2 : (stopTag : List Char).length = 6 := rfl
  simp only [List.length_append, List.length_cons, l1, l2]
  omega

/-- Witness for C4: instantiating the general conjunct at
`[img=12,3]a.png[/img]` produces the image element with width `12`,
height `3` and source `a.png`. -/
theorem c4_inline_transformer_witness :
    process_images
        ("[img=".toList ++ ("12".toList ++ ',' ::
          ("3".toList ++ ']' :: ("a.png".toList ++ stopTag)))) =
      imgReplace "12".toList "3".toList "a.png".toList :=
  c4_inline_transformer.1 "12".toList "3".toList "a.png".toList ','
    (by decide) (by decide) (by decide) (by decide) (by decide) (by decide) (by decide)
    (by decide)
